import Mathlib

/-!
Verification of the restish CLI core against its design specification.

The Go sources embedded here are `cli/auth.go` (auth handlers) and the main
CLI file (`Init`, `Defaults`, `generic`, `Run`).  Components that the design
document describes but that are absent from the visible sources (the content
type negotiation functions, the encoding registry decode step, the link
resolution engine merge, the codec implementations) are modelled from the
specification text; each such definition carries a doc comment saying so.
-/

/-! ## Data model shared by the auth handlers (from cli/auth.go) -/

/-- AuthParam from auth.go lines 10 to 14: one auth input parameter. -/
structure AuthParam where
  Name : String
  Help : String
  Required : Bool
deriving Repr, DecidableEq

/-- Auth parameter values, a Go map from string to string.  A Go map holds at
most one value per key; an association list with unique keys models it. -/
abbrev Params := List (String × String)

/-- Go map indexing `m[k]` returns the zero value (the empty string) when the
key is absent. -/
def mapGet (m : Params) (k : String) : String :=
  (m.lookup k).getD ""

/-- The outgoing HTTP request, reduced to the parts the handlers mutate:
its header list (Header.Add appends) and the basic auth credentials that
net/http SetBasicAuth records. -/
structure Request where
  headers : List (String × String)
  basicAuth : Option (String × String)
deriving Repr, DecidableEq

/-- req.Header.Add appends one header to the request. -/
def addHeader (req : Request) (name value : String) : Request :=
  { req with headers := req.headers ++ [(name, value)] }

/-- req.SetBasicAuth from net/http records the username and password pair. -/
def setBasicAuth (req : Request) (user pass : String) : Request :=
  { req with basicAuth := some (user, pass) }

/-! ## BasicAuth (auth.go lines 34 to 49) -/

/-- BasicAuth.Parameters from auth.go lines 38 to 43: username and password,
both required. -/
def BasicAuth.Parameters : List AuthParam :=
  [⟨"username", "", true⟩, ⟨"password", "", true⟩]

/-- BasicAuth.OnRequest from auth.go lines 46 to 49: it calls
req.SetBasicAuth(params["username"], params["password"]) and returns nil.
The returned Option String is the Go error (none is nil). -/
def BasicAuth.OnRequest (req : Request) (key : String) (params : Params) :
    Request × Option String :=
  (setBasicAuth req (mapGet params "username") (mapGet params "password"), none)

/-! ## ApiKeyHeaderFromShellAuth (auth.go lines 51 to 72) -/

/-- ApiKeyHeaderFromShellAuth.Parameters from auth.go lines 55 to 59. -/
def ApiKeyHeaderFromShellAuth.Parameters : List AuthParam :=
  [⟨"cmd", "", true⟩]

/-- Go strings.Split with a one character separator: splits around every
occurrence of the separator; the empty input yields one empty part. -/
def splitOnChar (sep : Char) : List Char → List (List Char)
  | [] => [[]]
  | c :: rest =>
    let r := splitOnChar sep rest
    if c = sep then [] :: r
    else
      match r with
      | [] => [[c]]
      | p :: ps => (c :: p) :: ps

/-- Go strings.TrimSuffix(s, "\n"): removes one trailing newline if present. -/
def trimSuffixNewline (s : List Char) : List Char :=
  if s.getLast? = some '\n' then s.dropLast else s

/-- The observable result of running a Go function that may panic: either it
panicked with a message, or it completed returning a request and an error. -/
inductive HandlerOutcome where
  | panicked (msg : String)
  | completed (req : Request) (err : Option String)
deriving Repr, DecidableEq

/-- ApiKeyHeaderFromShellAuth.OnRequest from auth.go lines 61 to 72.  The
external shell command is modelled by its result: `none` when
exec.Command(...).Output() returns an error, `some out` with the captured
stdout otherwise.  On command error the Go code panics; otherwise it trims one
trailing newline, splits the output on every colon, panics unless that gives
exactly two parts, and else adds the single header data[0]: data[1] and
returns nil. -/
def ApiKeyHeaderFromShellAuth.OnRequest (shell : Option (List Char))
    (req : Request) (key : String) (params : Params) : HandlerOutcome :=
  match shell with
  | none => .panicked "Error running command for ApiKeyHeaderFromShellAuth"
  | some out =>
    let data := splitOnChar ':' (trimSuffixNewline out)
    if data.length = 2 then
      .completed
        (addHeader req (String.mk (data.getD 0 [])) (String.mk (data.getD 1 [])))
        none
    else .panicked "Format error for command in ApiKeyHeaderFromShellAuth"

/-! ## Registries (auth.go line 27 to 32, main file Init and Defaults) -/

/-- Assignment `m[k] = v` into a Go map: at most one entry per key, an
existing entry for the key is replaced in place, a new key is appended. -/
def mapInsert {α : Type} : List (String × α) → String → α → List (String × α)
  | [], k, v => [(k, v)]
  | (k0, v0) :: rest, k, v =>
    if k0 = k then (k, v) :: rest else (k0, v0) :: mapInsert rest k v

/-- AddAuth from auth.go lines 30 to 32: `authHandlers[name] = h` on the Go
map of registered auth handlers.  The handler value is kept abstract. -/
def AddAuth {α : Type} (m : List (String × α)) (name : String) (h : α) :
    List (String × α) :=
  mapInsert m name h

/-- AddEncoding: `encodings[name] = enc` on the Go map of content encodings
(the map type is visible in Init, line 106).  Same Go map assignment. -/
def AddEncoding {α : Type} (m : List (String × α)) (name : String) (e : α) :
    List (String × α) :=
  mapInsert m name e

/-- One entry of the content type registry: a MIME pattern (exact or a
`type/*` wildcard), a quality weight in (0,1], and the codec, kept as a name
tag.  Only the order of quality weights matters to negotiation, so the float
is modelled as an integer count of thousandths (0.9 becomes 900). -/
structure contentTypeEntry where
  pattern : String
  quality : Nat
  codecName : String
deriving Repr, DecidableEq

/-- Modelled from the spec: AddContentType is absent from the sources (Init
line 105 only shows that the registry is an ordered list of entries).  Spec
section 3: the registry is an ordered collection keyed by pattern, insertion
order preserved; re-registration replaces, never duplicates. -/
def AddContentType (reg : List contentTypeEntry) (pattern : String) (q : Nat)
    (codec : String) : List contentTypeEntry :=
  match reg with
  | [] => [⟨pattern, q, codec⟩]
  | e :: rest =>
    if e.pattern = pattern then ⟨pattern, q, codec⟩ :: rest
    else e :: AddContentType rest pattern q codec

/-- The content type registrations performed by Defaults (main file lines
409 to 414), in source order. -/
def DefaultsContentTypes : List contentTypeEntry :=
  AddContentType (AddContentType (AddContentType (AddContentType (AddContentType
    (AddContentType [] "application/cbor" 900 "cbor")
    "application/msgpack" 800 "msgpack")
    "application/ion" 600 "ion")
    "application/json" 500 "json")
    "application/yaml" 500 "yaml")
    "text/*" 200 "text"

/-! ## Content type negotiation (modelled from the spec, section 4.1) -/

/-- Whether the first list leads the second (Go strings.HasPrefix over the
character lists). -/
def leadsList : List Char → List Char → Bool
  | p :: ps, c :: cs => p = c && leadsList ps cs
  | [], _ => true
  | _, _ => false

/-- A pattern of the form `type/*` is a wildcard: it ends in the two
characters slash and star. -/
def isWildcard (pattern : String) : Bool :=
  leadsList ['*', '/'] pattern.data.reverse

/-- Whether a registered pattern matches a concrete MIME type: exact
equality, or a wildcard whose stem (everything before the star) leads the
type. -/
def matchesCT (pattern ct : String) : Bool :=
  pattern = ct || (isWildcard pattern && leadsList pattern.data.dropLast ct.data)

/-- Best entry by declared quality; a strict comparison keeps the earlier
entry on ties, so equal quality breaks ties by registration order. -/
def bestByQuality (entries : List contentTypeEntry) : Option contentTypeEntry :=
  entries.foldl
    (fun best e =>
      match best with
      | none => some e
      | some b => if b.quality < e.quality then some e else some b)
    none

/-- Wildcard preference order for a response match: the more specific (longer)
pattern first, then higher quality, then registration order. -/
def betterWildcard (a b : contentTypeEntry) : Bool :=
  b.pattern.length < a.pattern.length ||
    (b.pattern.length = a.pattern.length && b.quality < a.quality)

/-- Modelled from the spec: selectForResponse is absent from the sources.
Spec section 4.1: matches the exact MIME type first, then the most specific
matching wildcard, else fails; the invariant in section 3 adds that an exact
match outranks a wildcard regardless of quality. -/
def selectForResponse (reg : List contentTypeEntry) (ct : String) :
    Option contentTypeEntry :=
  match reg.find? (fun e => e.pattern = ct) with
  | some e => some e
  | none =>
    (reg.filter (fun e => isWildcard e.pattern && matchesCT e.pattern ct)).foldl
      (fun best e =>
        match best with
        | none => some e
        | some b => if betterWildcard e b then some e else some b)
      none

/-- Modelled from the spec: selectForRequest is absent from the sources.
Spec section 4.1: with an explicit type the codec registered for that type is
used; with no explicit type it defaults to the highest quality exact
(non-wildcard) codec of the registry. -/
def selectForRequest (reg : List contentTypeEntry) (explicitType : Option String) :
    Option contentTypeEntry :=
  match explicitType with
  | some t => reg.find? (fun e => matchesCT e.pattern t)
  | none => bestByQuality (reg.filter (fun e => !isWildcard e.pattern))

/-- From generic (main file lines 83 to 96): every generic verb command
builds its body with GetBody("application/json", args), an explicit content
type fixed to application/json; the codec actually used for the request body
is therefore the one selected for that explicit type. -/
def genericRequestCodec (reg : List contentTypeEntry) : Option contentTypeEntry :=
  selectForRequest reg (some "application/json")

/-! ## Link resolution engine (modelled from the spec, section 4.4) -/

/-- One resolved link. -/
structure Link where
  rel : String
  uri : String
deriving Repr, DecidableEq

/-- A LinkMap taken by its lookup function: each relation name maps to the
ordered sequence of links discovered under it. -/
abbrev LinkMap : Type := String → List Link

/-- The LinkMap with no relations. -/
def LinkMap.empty : LinkMap := fun _ => []

/-- Modelled from the spec: the merge step of the link resolution engine is
absent from the sources (Defaults, main file lines 416 to 420, only registers
the four parsers).  Spec section 4.4: maps are merged by relation,
concatenating, never overwriting, sequences when two parsers report the same
relation. -/
def mergeLinkMap (a b : LinkMap) : LinkMap :=
  fun rel => a rel ++ b rel

/-- Modelled from the spec: the engine runs every registered parser over the
same response and merges the returned maps in parser registration order. -/
def resolveLinks {ρ : Type} (parsers : List (ρ → LinkMap)) (resp : ρ) : LinkMap :=
  parsers.foldl (fun acc p => mergeLinkMap acc (p resp)) LinkMap.empty

/-! ## Encoding registry decode (modelled from the spec, section 4.2) -/

/-- A byte sequence. -/
abbrev ByteSeq := List Nat

/-- The registered content decodings: token name to decompress transform. -/
abbrev EncodingRegistry := List (String × (ByteSeq → ByteSeq))

/-- The soft warning emitted for an unknown encoding token. -/
def unknownEncodingWarning (tok : String) : String :=
  "unsupported content encoding " ++ tok

/-- Modelled from the spec: the decode step of the encoding registry is
absent from the sources.  Spec section 4.2: the tokens of the response
encoding header are applied left to right; a token naming no registered
encoding leaves the bytes unchanged and adds a soft warning; decode never
hard-fails, so its result type has no error component. -/
def decodeTokens (reg : EncodingRegistry) : List String → ByteSeq × List String →
    ByteSeq × List String
  | [], acc => acc
  | tok :: rest, acc =>
    match reg.lookup tok with
    | some d => decodeTokens reg rest (d acc.1, acc.2)
    | none => decodeTokens reg rest (acc.1, acc.2 ++ [unknownEncodingWarning tok])

/-- Surrounding whitespace removed from a token (Go strings.TrimSpace). -/
def trimAscii (l : List Char) : List Char :=
  ((l.dropWhile (·.isWhitespace)).reverse.dropWhile (·.isWhitespace)).reverse

/-- The response Content-Encoding header split on commas into trimmed
tokens. -/
def encodingHeaderTokens (header : String) : List String :=
  (splitOnChar ',' header.data).map (fun t => String.mk (trimAscii t))

/-- Modelled from the spec: decode applies the listed tokens left to right
over the response bytes, collecting soft warnings. -/
def decode (reg : EncodingRegistry) (header : String) (bytes : ByteSeq) :
    ByteSeq × List String :=
  decodeTokens reg (encodingHeaderTokens header) (bytes, [])

/-! ## Auth dispatch (modelled from the spec, section 4.3) -/

/-- The auth dispatch error taxonomy from spec section 7. -/
inductive AuthError where
  | UnknownAuthScheme (scheme : String)
  | MissingAuthParam (param : String)
  | AuthHandlerError (scheme cause : String)
deriving Repr, DecidableEq

/-- An auth handler as the dispatch layer sees it: its declared parameter
list and its apply step, which may fail with a handler specific cause. -/
structure DispatchHandler where
  params : List AuthParam
  apply : Request → String → Params → Except String Request

/-- The first declared parameter that is required but has no value in the
supplied params. -/
def firstMissingRequired (ps : List AuthParam) (params : Params) :
    Option AuthParam :=
  ps.find? (fun p => p.Required && (params.lookup p.Name).isNone)

/-- Modelled from the spec: the auth dispatch pipeline is absent from the
sources (only the handlers and AddAuth are visible).  Spec section 4.3: look
up the scheme, fail with UnknownAuthScheme if unregistered; validate that all
required AuthParams have values, failing with MissingAuthParam naming the
missing field before apply is invoked; a handler failure is wrapped as
AuthHandlerError carrying the scheme name and the cause. -/
def applyAuth (handlers : List (String × DispatchHandler)) (scheme key : String)
    (params : Params) (req : Request) : Except AuthError Request :=
  match handlers.lookup scheme with
  | none => .error (.UnknownAuthScheme scheme)
  | some h =>
    match firstMissingRequired h.params params with
    | some p => .error (.MissingAuthParam p.Name)
    | none =>
      match h.apply req key params with
      | .error cause => .error (.AuthHandlerError scheme cause)
      | .ok r => .ok r

/-- BasicAuth packaged for the dispatch layer: its parameter list and apply
step come from the source functions; OnRequest never returns an error. -/
def basicAuthDispatch : DispatchHandler where
  params := BasicAuth.Parameters
  apply := fun req key params => .ok (BasicAuth.OnRequest req key params).1

/-! ## JSON and YAML codecs (modelled from the spec, sections 3 and 8)

The codec implementations are absent from the sources; Defaults (main file
lines 412 to 413) only registers them.  Spec section 8 demands
unmarshal(marshal(v)) == v for every value representable in the format.  The
values representable in JSON are documents built from null, booleans,
numbers, strings, arrays and objects; numbers are modelled as integers, since
floating point cannot be embedded shallowly.  The YAML codec used by the Go
module converts through exactly these JSON-compatible values, and every JSON
document is valid YAML flow style, so the modelled YAML codec shares the
value space and surface text of the JSON one. -/

mutual

/-- Modelled from the spec: a JSON document value. -/
inductive JValue where
  | null : JValue
  | bool (b : Bool) : JValue
  | num (n : Int) : JValue
  | str (s : List Char) : JValue
  | arr (xs : JArr) : JValue
  | obj (fs : JObj) : JValue

/-- The elements of a JSON array. -/
inductive JArr where
  | nil : JArr
  | cons (hd : JValue) (tl : JArr) : JArr

/-- The fields of a JSON object, in document order. -/
inductive JObj where
  | nil : JObj
  | cons (key : List Char) (val : JValue) (tl : JObj) : JObj

end

/-- The keyword of the null document value. -/
def nullLit : List Char := ['n', 'u', 'l', 'l']

/-- The keyword of the true document value. -/
def trueLit : List Char := ['t', 'r', 'u', 'e']

/-- The keyword of the false document value. -/
def falseLit : List Char := ['f', 'a', 'l', 's', 'e']

/-- The double quote character, written by code point to keep the source
free of quote literals. -/
def quoteChar : Char := Char.ofNat 34

/-- The backslash character. -/
def backslashChar : Char := Char.ofNat 92

/-- The opening curly bracket. -/
def lbraceChar : Char := Char.ofNat 123

/-- The closing curly bracket. -/
def rbraceChar : Char := Char.ofNat 125

/-- The decimal digit characters. -/
def digitChar : Nat → Char
  | 0 => '0' | 1 => '1' | 2 => '2' | 3 => '3' | 4 => '4'
  | 5 => '5' | 6 => '6' | 7 => '7' | 8 => '8' | _ => '9'

/-- Whether a character is a decimal digit. -/
def isDigitChar (c : Char) : Bool :=
  48 ≤ c.toNat && c.toNat ≤ 57

/-- The numeric value of a digit character. -/
def digitVal (c : Char) : Nat := c.toNat - 48

/-- The decimal digits of a positive number, most significant first; zero
gives the empty list. -/
def natDigits (n : Nat) : List Char :=
  if h : n = 0 then []
  else natDigits (n / 10) ++ [digitChar (n % 10)]
termination_by n
decreasing_by exact Nat.div_lt_self (Nat.pos_of_ne_zero h) (by omega)

/-- The decimal rendering of a natural number. -/
def renderNat (n : Nat) : List Char :=
  if n = 0 then ['0'] else natDigits n

/-- The decimal rendering of an integer: a minus sign only when negative. -/
def renderInt (n : Int) : List Char :=
  if n < 0 then '-' :: renderNat n.natAbs else renderNat n.natAbs

/-- The longest run of leading digits, and the remaining input. -/
def takeDigits : List Char → List Char × List Char
  | [] => ([], [])
  | c :: rest =>
    if isDigitChar c then
      let p := takeDigits rest
      (c :: p.1, p.2)
    else ([], c :: rest)

/-- The number denoted by a digit run, most significant first. -/
def digitsToNat (ds : List Char) : Nat :=
  ds.foldl (fun a c => 10 * a + digitVal c) 0

/-- Escaping of one string character: the quote and the backslash are
preceded by a backslash, everything else is copied verbatim. -/
def escChar (c : Char) : List Char :=
  if c = quoteChar ∨ c = backslashChar then [backslashChar, c] else [c]

/-- The escaped body of a JSON string literal. -/
def escape : List Char → List Char
  | [] => []
  | c :: s => escChar c ++ escape s

mutual

/-- Modelled from the spec: marshal of a JSON document value to its text. -/
def render : JValue → List Char
  | .null => nullLit
  | .bool true => trueLit
  | .bool false => falseLit
  | .num n => renderInt n
  | .str s => quoteChar :: (escape s ++ [quoteChar])
  | .arr .nil => ['[', ']']
  | .arr (.cons v tl) => '[' :: (render v ++ (renderArrTail tl ++ [']']))
  | .obj .nil => [lbraceChar, rbraceChar]
  | .obj (.cons k v tl) =>
    lbraceChar :: (renderField k v ++ (renderObjTail tl ++ [rbraceChar]))

/-- One rendered object field: quoted key, colon, value. -/
def renderField (k : List Char) (v : JValue) : List Char :=
  quoteChar :: (escape k ++ (quoteChar :: ':' :: render v))

/-- The remaining array elements, each preceded by a comma. -/
def renderArrTail : JArr → List Char
  | .nil => []
  | .cons v tl => ',' :: (render v ++ renderArrTail tl)

/-- The remaining object fields, each preceded by a comma. -/
def renderObjTail : JObj → List Char
  | .nil => []
  | .cons k v tl => ',' :: (renderField k v ++ renderObjTail tl)

end

mutual

/-- The parsing budget a value needs: one unit per scalar, one per element
and field. -/
def sizeV : JValue → Nat
  | .arr xs => sizeA xs + 1
  | .obj fs => sizeO fs + 1
  | _ => 1

/-- Budget of the remaining array elements. -/
def sizeA : JArr → Nat
  | .nil => 1
  | .cons v tl => sizeV v + sizeA tl

/-- Budget of the remaining object fields. -/
def sizeO : JObj → Nat
  | .nil => 1
  | .cons _ v tl => sizeV v + sizeO tl

end

/-- The body of a JSON string literal up to its closing quote: a backslash
takes the next character verbatim, the first unescaped quote ends the
string. -/
def parseStrBody : List Char → Option (List Char × List Char)
  | [] => none
  | c :: rest =>
    if c = quoteChar then some ([], rest)
    else if c = backslashChar then
      match rest with
      | [] => none
      | e :: rest2 =>
        match parseStrBody rest2 with
        | none => none
        | some (s, r) => some (e :: s, r)
    else
      match parseStrBody rest with
      | none => none
      | some (s, r) => some (c :: s, r)

/-- A JSON number: an optional minus sign followed by at least one digit,
read greedily. -/
def parseNum : List Char → Option (JValue × List Char)
  | [] => none
  | c :: rest =>
    if c = '-' then
      let p := takeDigits rest
      if p.1 = [] then none else some (.num (-(digitsToNat p.1 : Int)), p.2)
    else
      let p := takeDigits (c :: rest)
      if p.1 = [] then none else some (.num ((digitsToNat p.1 : Int)), p.2)

/-- Consumes an expected literal character sequence from the input. -/
def expectLit : List Char → List Char → Option (List Char)
  | [], rest => some rest
  | _ :: _, [] => none
  | l :: ls, c :: rest => if c = l then expectLit ls rest else none

mutual

/-- Modelled from the spec: unmarshal of one JSON value, with a recursion
budget. -/
def parseVal : Nat → List Char → Option (JValue × List Char)
  | 0, _ => none
  | fuel+1, input =>
    match input with
    | [] => none
    | c :: rest =>
      if c = 'n' then
        match expectLit ['u', 'l', 'l'] rest with
        | none => none
        | some r => some (.null, r)
      else if c = 't' then
        match expectLit ['r', 'u', 'e'] rest with
        | none => none
        | some r => some (.bool true, r)
      else if c = 'f' then
        match expectLit ['a', 'l', 's', 'e'] rest with
        | none => none
        | some r => some (.bool false, r)
      else if c = quoteChar then
        match parseStrBody rest with
        | none => none
        | some (s, r) => some (.str s, r)
      else if c = '[' then
        if rest.head? = some ']' then some (.arr .nil, rest.tail)
        else
          match parseItems fuel rest with
          | none => none
          | some (vs, r2) => some (.arr vs, r2)
      else if c = lbraceChar then
        if rest.head? = some rbraceChar then some (.obj .nil, rest.tail)
        else
          match parseFields fuel rest with
          | none => none
          | some (fs, r2) => some (.obj fs, r2)
      else parseNum (c :: rest)

/-- One or more comma separated array elements up to the closing bracket. -/
def parseItems : Nat → List Char → Option (JArr × List Char)
  | 0, _ => none
  | fuel+1, input =>
    match parseVal fuel input with
    | none => none
    | some (v, r) =>
      match r with
      | [] => none
      | c :: r2 =>
        if c = ',' then
          match parseItems fuel r2 with
          | none => none
          | some (vs, r3) => some (.cons v vs, r3)
        else if c = ']' then some (.cons v .nil, r2)
        else none

/-- One or more comma separated object fields up to the closing bracket. -/
def parseFields : Nat → List Char → Option (JObj × List Char)
  | 0, _ => none
  | fuel+1, input =>
    match input with
    | [] => none
    | c :: rest =>
      if c = quoteChar then
        match parseStrBody rest with
        | none => none
        | some (k, r) =>
          match r with
          | [] => none
          | c2 :: r2 =>
            if c2 = ':' then
              match parseVal fuel r2 with
              | none => none
              | some (v, r3) =>
                match r3 with
                | [] => none
                | c3 :: r4 =>
                  if c3 = ',' then
                    match parseFields fuel r4 with
                    | none => none
                    | some (fs, r5) => some (.cons k v fs, r5)
                  else if c3 = rbraceChar then some (.cons k v .nil, r4)
                  else none
            else none
      else none

end

/-- Whether the input does not begin with a digit; a number rendered just
before such a remainder is read back without absorbing extra characters. -/
def headNotDigit : List Char → Prop
  | [] => True
  | c :: _ => isDigitChar c = false

/-- Modelled from the spec: JSON marshal of a document value. -/
def JSON.marshal : JValue → List Char := render

/-- Modelled from the spec: JSON unmarshal; the budget one more than the
input length always suffices. -/
def JSON.unmarshal (s : List Char) : Option JValue :=
  match parseVal (s.length + 1) s with
  | some (v, []) => some v
  | _ => none

/-- Modelled from the spec: the YAML codec converts through the same
JSON-compatible document values, and the emitted flow style document is the
same text. -/
def YAML.marshal : JValue → List Char := render

/-- Modelled from the spec: YAML unmarshal over the shared value space. -/
def YAML.unmarshal : List Char → Option JValue := JSON.unmarshal

/-! ## DEFINITIONS END, THEOREMS BEGIN -/

/-! ## Theorems for claims C1, C9, C10 -/

/-- Claim C9: for every request and params map, BasicAuth.OnRequest returns a
nil error and records basic credentials read with Go map indexing, so an
absent username or password key contributes the empty string. -/
theorem claim_C9_basicauth_total (req : Request) (key : String) (params : Params) :
    (BasicAuth.OnRequest req key params).2 = none ∧
    (BasicAuth.OnRequest req key params).1.basicAuth =
      some ((params.lookup "username").getD "", (params.lookup "password").getD "") ∧
    (BasicAuth.OnRequest req key params).1.headers = req.headers := by
  refine ⟨rfl, ?_, rfl⟩
  simp [BasicAuth.OnRequest, setBasicAuth, mapGet]

/-- Claim C10: ApiKeyHeaderFromShellAuth.OnRequest adds exactly one header and
returns nil exactly when the shell command succeeds and its output, after one
trailing newline is stripped, splits on colons into exactly two parts; the
header added is the part before the first colon paired with the part after it,
and every other shape, including command failure and a value with an extra
colon, ends in a panic rather than an error return. -/
theorem claim_C10_shell_header_shape (shell : Option (List Char)) (req : Request)
    (key : String) (params : Params) :
    ((∃ r, ApiKeyHeaderFromShellAuth.OnRequest shell req key params = .completed r none ∧
        r.headers.length = req.headers.length + 1) ↔
      (∃ out, shell = some out ∧
        (splitOnChar ':' (trimSuffixNewline out)).length = 2)) ∧
    (∀ out, shell = some out →
      (splitOnChar ':' (trimSuffixNewline out)).length = 2 →
      ApiKeyHeaderFromShellAuth.OnRequest shell req key params =
        .completed (addHeader req
          (String.mk ((splitOnChar ':' (trimSuffixNewline out)).getD 0 []))
          (String.mk ((splitOnChar ':' (trimSuffixNewline out)).getD 1 []))) none) ∧
    (∀ out, shell = some out →
      (splitOnChar ':' (trimSuffixNewline out)).length ≠ 2 →
      ∃ msg, ApiKeyHeaderFromShellAuth.OnRequest shell req key params = .panicked msg) := by
  refine ⟨⟨?_, ?_⟩, ?_, ?_⟩
  · rintro ⟨r, hr, _⟩
    cases shell with
    | none => simp [ApiKeyHeaderFromShellAuth.OnRequest] at hr
    | some out =>
      refine ⟨out, rfl, ?_⟩
      by_contra hlen
      simp [ApiKeyHeaderFromShellAuth.OnRequest, hlen] at hr
  · rintro ⟨out, rfl, hlen⟩
    refine ⟨addHeader req
        (String.mk ((splitOnChar ':' (trimSuffixNewline out)).getD 0 []))
        (String.mk ((splitOnChar ':' (trimSuffixNewline out)).getD 1 [])), ?_, ?_⟩
    · simp [ApiKeyHeaderFromShellAuth.OnRequest, hlen]
    · simp [addHeader]
  · rintro out rfl hlen
    simp [ApiKeyHeaderFromShellAuth.OnRequest, hlen]
  · rintro out rfl hlen
    refine ⟨"Format error for command in ApiKeyHeaderFromShellAuth", ?_⟩
    simp [ApiKeyHeaderFromShellAuth.OnRequest, hlen]

/-- Witness for claim C10 at a concrete successful command output
"X-Key:abc\n": the handler completes with exactly one header added. -/
theorem claim_C10_shell_header_shape_witness :
    ∃ r, ApiKeyHeaderFromShellAuth.OnRequest
        (some ("X-Key:abc\n".data)) ⟨[], none⟩ "k" [] = .completed r none ∧
      r.headers.length = ([] : List (String × String)).length + 1 :=
  (claim_C10_shell_header_shape (some ("X-Key:abc\n".data)) ⟨[], none⟩ "k" []).1.mpr
    ⟨"X-Key:abc\n".data, rfl, by decide⟩

/-- Claim C1 (the code contradicts the specified behaviour): when the shell
command fails, ApiKeyHeaderFromShellAuth.OnRequest panics with a bare string
instead of returning an error value carrying the handler name and cause; the
panic is only intercepted by the deferred recover in Run, so no HandlerError
ever reaches the caller. -/
theorem claim_C1_shell_failure_panics (req : Request) (key : String) (params : Params) :
    ApiKeyHeaderFromShellAuth.OnRequest none req key params =
      .panicked "Error running command for ApiKeyHeaderFromShellAuth" := rfl

/-! ## Registry helper lemmas -/

theorem mapInsert_lookup_self {α : Type} (m : List (String × α)) (k : String) (v : α) :
    (mapInsert m k v).lookup k = some v := by
  induction m with
  | nil => simp [mapInsert, List.lookup]
  | cons p rest ih =>
    obtain ⟨k0, v0⟩ := p
    by_cases h : k0 = k
    · simp [mapInsert, h, List.lookup]
    · have hb : (k == k0) = false := beq_eq_false_iff_ne.mpr (Ne.symm h)
      simp [mapInsert, h, List.lookup, hb, ih]

theorem mapInsert_keys {α : Type} (m : List (String × α)) (k : String) (v : α) :
    (mapInsert m k v).map Prod.fst =
      if k ∈ m.map Prod.fst then m.map Prod.fst else m.map Prod.fst ++ [k] := by
  induction m with
  | nil => simp [mapInsert]
  | cons p rest ih =>
    obtain ⟨k0, v0⟩ := p
    by_cases h : k0 = k
    · subst h
      simp [mapInsert]
    · by_cases hmem : k ∈ rest.map Prod.fst
      · simp [mapInsert, h, ih, hmem, Ne.symm h]
      · simp [mapInsert, h, ih, hmem, Ne.symm h]

theorem mapInsert_keys_nodup {α : Type} (m : List (String × α)) (k : String) (v : α)
    (hm : (m.map Prod.fst).Nodup) : ((mapInsert m k v).map Prod.fst).Nodup := by
  rw [mapInsert_keys]
  by_cases hmem : k ∈ m.map Prod.fst
  · simpa [hmem] using hm
  · simp [hmem, List.nodup_append, hm]

theorem foldl_mapInsert_nodup {α : Type} (seq : List (String × α)) :
    ∀ m : List (String × α), (m.map Prod.fst).Nodup →
      (((seq.foldl (fun m p => mapInsert m p.1 p.2) m)).map Prod.fst).Nodup := by
  induction seq with
  | nil => intro m hm; simpa using hm
  | cons p rest ih =>
    intro m hm
    exact ih _ (mapInsert_keys_nodup m p.1 p.2 hm)

theorem AddContentType_find_self (reg : List contentTypeEntry) (pat : String)
    (q : Nat) (c : String) :
    (AddContentType reg pat q c).find? (fun e => e.pattern = pat) =
      some ⟨pat, q, c⟩ := by
  induction reg with
  | nil => simp [AddContentType]
  | cons e rest ih =>
    by_cases h : e.pattern = pat
    · simp [AddContentType, h]
    · simp [AddContentType, h, ih]

theorem AddContentType_keys (reg : List contentTypeEntry) (pat : String)
    (q : Nat) (c : String) :
    (AddContentType reg pat q c).map contentTypeEntry.pattern =
      if pat ∈ reg.map contentTypeEntry.pattern then reg.map contentTypeEntry.pattern
      else reg.map contentTypeEntry.pattern ++ [pat] := by
  induction reg with
  | nil => simp [AddContentType]
  | cons e rest ih =>
    by_cases h : e.pattern = pat
    · simp [AddContentType, h]
    · by_cases hmem : pat ∈ rest.map contentTypeEntry.pattern
      · simp [AddContentType, h, ih, hmem, Ne.symm h]
      · simp [AddContentType, h, ih, hmem, Ne.symm h]

theorem AddContentType_keys_nodup (reg : List contentTypeEntry) (pat : String)
    (q : Nat) (c : String) (hm : (reg.map contentTypeEntry.pattern).Nodup) :
    ((AddContentType reg pat q c).map contentTypeEntry.pattern).Nodup := by
  rw [AddContentType_keys]
  by_cases hmem : pat ∈ reg.map contentTypeEntry.pattern
  · simpa [hmem] using hm
  · simp [hmem, List.nodup_append, hm]

theorem foldl_AddContentType_nodup (seq : List (String × Nat × String)) :
    ∀ reg : List contentTypeEntry, (reg.map contentTypeEntry.pattern).Nodup →
      (((seq.foldl (fun r p => AddContentType r p.1 p.2.1 p.2.2) reg)).map
        contentTypeEntry.pattern).Nodup := by
  induction seq with
  | nil => intro reg hm; simpa using hm
  | cons p rest ih =>
    intro reg hm
    exact ih _ (AddContentType_keys_nodup reg p.1 p.2.1 p.2.2 hm)

/-- Claim C7: in every registry, registering a second entry under an already
registered key replaces the existing entry; after any sequence of
registrations each key maps to exactly one entry and the key list never holds
duplicates.  AddAuth and AddEncoding are the Go map assignment; AddContentType
is the ordered pattern-keyed registry. -/
theorem claim_C7_reregistration_replaces {α : Type} :
    (∀ (m : List (String × α)) (n : String) (h1 h2 : α),
      (AddAuth (AddAuth m n h1) n h2).lookup n = some h2) ∧
    (∀ (m : List (String × α)) (n : String) (e1 e2 : α),
      (AddEncoding (AddEncoding m n e1) n e2).lookup n = some e2) ∧
    (∀ (m : List (String × α)) (n : String) (h : α),
      (AddAuth m n h).map Prod.fst =
        if n ∈ m.map Prod.fst then m.map Prod.fst else m.map Prod.fst ++ [n]) ∧
    (∀ seq : List (String × α),
      ((seq.foldl (fun m p => AddAuth m p.1 p.2) []).map Prod.fst).Nodup) ∧
    (∀ (reg : List contentTypeEntry) (pat : String) (q1 q2 : Nat) (c1 c2 : String),
      (AddContentType (AddContentType reg pat q1 c1) pat q2 c2).find?
        (fun e => e.pattern = pat) = some ⟨pat, q2, c2⟩) ∧
    (∀ seq : List (String × Nat × String),
      ((seq.foldl (fun r p => AddContentType r p.1 p.2.1 p.2.2) []).map
        contentTypeEntry.pattern).Nodup) := by
  refine ⟨?_, ?_, ?_, ?_, ?_, ?_⟩
  · intro m n h1 h2
    exact mapInsert_lookup_self _ n h2
  · intro m n e1 e2
    exact mapInsert_lookup_self _ n e2
  · intro m n h
    exact mapInsert_keys m n h
  · intro seq
    exact foldl_mapInsert_nodup seq [] (by simp)
  · intro reg pat q1 q2 c1 c2
    exact AddContentType_find_self _ pat q2 c2
  · intro seq
    exact foldl_AddContentType_nodup seq [] (by simp)

/-! ## Theorems for claim C2 (auth dispatch validation) -/

/-- Claim C2: when the looked-up handler declares a required parameter that
has no value in the supplied params, dispatch fails with MissingAuthParam
naming the first such field; the conclusion does not depend on the handler
apply function, so apply is never invoked. -/
theorem claim_C2_missing_param_blocks_apply
    (handlers : List (String × DispatchHandler)) (scheme key : String)
    (params : Params) (req : Request) (ps : List AuthParam)
    (f : Request → String → Params → Except String Request) (p : AuthParam)
    (hl : handlers.lookup scheme = some ⟨ps, f⟩)
    (hm : firstMissingRequired ps params = some p) :
    applyAuth handlers scheme key params req = .error (.MissingAuthParam p.Name) := by
  simp [applyAuth, hl, hm]

/-- Witness for claim C2: BasicAuth registered under http-basic, invoked with
only a username, fails with MissingAuthParam naming password. -/
theorem claim_C2_missing_param_blocks_apply_witness :
    applyAuth [("http-basic", basicAuthDispatch)] "http-basic" "default"
        [("username", "kari")] ⟨[], none⟩ =
      .error (.MissingAuthParam "password") :=
  claim_C2_missing_param_blocks_apply [("http-basic", basicAuthDispatch)]
    "http-basic" "default" [("username", "kari")] ⟨[], none⟩
    BasicAuth.Parameters basicAuthDispatch.apply ⟨"password", "", true⟩
    rfl
    (by decide)

/-! ## Theorems for claim C3 (request codec of the generic verbs) -/

/-- Claim C3 is false on the code: with the default registrations the
highest quality exact codec is cbor at 0.9, but the generic verb commands
hard-code the explicit content type application/json, so the selected request
codec is the json entry, not the highest quality exact one. -/
theorem claim_C3_counterexample :
    genericRequestCodec DefaultsContentTypes ≠
      selectForRequest DefaultsContentTypes none ∧
    selectForRequest DefaultsContentTypes none =
      some ⟨"application/cbor", 900, "cbor"⟩ ∧
    genericRequestCodec DefaultsContentTypes =
      some ⟨"application/json", 500, "json"⟩ := by decide

/-- Claim C3 amended: every generic verb command passes the explicit content
type application/json when building the request body, so with the default
registrations the request codec is unconditionally the json codec. -/
theorem claim_C3_generic_unconditionally_json :
    genericRequestCodec DefaultsContentTypes =
      some ⟨"application/json", 500, "json"⟩ ∧
    ∀ reg : List contentTypeEntry,
      genericRequestCodec reg = selectForRequest reg (some "application/json") :=
  ⟨by decide, fun _ => rfl⟩

/-! ## Theorems for claim C4 (link merge) -/

theorem resolveLinks_foldl {ρ : Type} (parsers : List (ρ → LinkMap)) (resp : ρ)
    (rel : String) :
    ∀ acc : LinkMap,
      (parsers.foldl (fun a p => mergeLinkMap a (p resp)) acc) rel =
        acc rel ++ (parsers.map (fun p => p resp rel)).flatten := by
  induction parsers with
  | nil => intro acc; simp
  | cons p rest ih =>
    intro acc
    simp [List.foldl_cons, ih (mergeLinkMap acc (p resp)), mergeLinkMap]

/-- Claim C4: the merged LinkMap holds, under every relation, the
concatenation of the sequences every parser reports for that relation, in
parser registration order, each sequence keeping its own discovery order; for
two parsers the merged sequence is the first parser links followed by the
second parser links, so one link each yields a sequence of length two. -/
theorem claim_C4_merge_concatenates {ρ : Type} (parsers : List (ρ → LinkMap))
    (resp : ρ) (rel : String) :
    resolveLinks parsers resp rel = (parsers.map (fun p => p resp rel)).flatten ∧
    ∀ p1 p2 : ρ → LinkMap,
      resolveLinks [p1, p2] resp rel = p1 resp rel ++ p2 resp rel ∧
      ((p1 resp rel).length = 1 → (p2 resp rel).length = 1 →
        (resolveLinks [p1, p2] resp rel).length = 2) := by
  constructor
  · have h := resolveLinks_foldl parsers resp rel LinkMap.empty
    simp only [LinkMap.empty, List.nil_append] at h
    exact h
  · intro p1 p2
    constructor
    · have h := resolveLinks_foldl [p1, p2] resp rel LinkMap.empty
      simp only [List.map_cons, List.map_nil, List.flatten, LinkMap.empty,
        List.nil_append, List.append_nil] at h
      exact h
    · intro h1 h2
      simp [resolveLinks, LinkMap.empty, mergeLinkMap, h1, h2]

/-! ## Theorems for claim C5 (exact match beats wildcard) -/

/-- Claim C5: whenever the registry holds an entry whose pattern is exactly
the declared response content type, selectForResponse returns an exact entry,
whatever the quality values of any wildcard entries. -/
theorem claim_C5_exact_beats_wildcard (reg : List contentTypeEntry) (ct : String)
    (h : ∃ e ∈ reg, e.pattern = ct) :
    ∃ e, selectForResponse reg ct = some e ∧ e.pattern = ct := by
  obtain ⟨e0, he0, hp⟩ := h
  cases hf : reg.find? (fun e => e.pattern = ct) with
  | none =>
    exfalso
    have := List.find?_eq_none.mp hf e0 he0
    simp [hp] at this
  | some e =>
    have hpe := List.find?_some hf
    refine ⟨e, ?_, by simpa using hpe⟩
    simp [selectForResponse, hf]

/-- Witness for claim C5 at the spec example: application/json at quality
0.5 against the wildcard application/* at quality 0.9; the exact entry is
selected. -/
theorem claim_C5_exact_beats_wildcard_witness :
    ∃ e, selectForResponse
        [⟨"application/json", 500, "json"⟩, ⟨"application/*", 900, "appwild"⟩]
        "application/json" = some e ∧ e.pattern = "application/json" :=
  claim_C5_exact_beats_wildcard _ _
    ⟨⟨"application/json", 500, "json"⟩, by decide, rfl⟩

/-! ## Theorems for claim C6 (decode never hard-fails) -/

theorem decodeTokens_all_unknown (reg : EncodingRegistry) :
    ∀ (toks : List String) (acc : ByteSeq × List String),
      (∀ t ∈ toks, reg.lookup t = none) →
      decodeTokens reg toks acc =
        (acc.1, acc.2 ++ toks.map unknownEncodingWarning) := by
  intro toks
  induction toks with
  | nil => intro acc _; simp [decodeTokens]
  | cons t rest ih =>
    intro acc hall
    have ht := hall t (by simp)
    have hrest : ∀ t ∈ rest, reg.lookup t = none := fun x hx => hall x (by simp [hx])
    simp [decodeTokens, ht, ih _ hrest]

/-- Claim C6: decode applies the listed encoding tokens left to right, each
token naming no registered encoding is a no-op that leaves the bytes
unchanged and adds one soft warning, and decode never hard-fails: its result
type carries no error, and when no token is registered the bytes come back
unchanged with one warning per token. -/
theorem claim_C6_unknown_token_noop (reg : EncodingRegistry) (header : String)
    (bytes : ByteSeq) :
    (∀ tok rest acc, reg.lookup tok = none →
      decodeTokens reg (tok :: rest) acc =
        decodeTokens reg rest (acc.1, acc.2 ++ [unknownEncodingWarning tok])) ∧
    (∀ tok d rest acc, reg.lookup tok = some d →
      decodeTokens reg (tok :: rest) acc = decodeTokens reg rest (d acc.1, acc.2)) ∧
    ((∀ t ∈ encodingHeaderTokens header, reg.lookup t = none) →
      decode reg header bytes =
        (bytes, (encodingHeaderTokens header).map unknownEncodingWarning)) := by
  refine ⟨?_, ?_, ?_⟩
  · intro tok rest acc hnone
    simp [decodeTokens, hnone]
  · intro tok d rest acc hsome
    simp [decodeTokens, hsome]
  · intro hall
    simpa [decode] using
      decodeTokens_all_unknown reg (encodingHeaderTokens header) (bytes, []) hall

/-- Witness for claim C6: an empty registry and the header "gzip, br"; both
tokens are unknown, the bytes come back unchanged with two soft warnings. -/
theorem claim_C6_unknown_token_noop_witness :
    decode [] "gzip, br" [1, 2, 3] =
      ([1, 2, 3], (encodingHeaderTokens "gzip, br").map unknownEncodingWarning) :=
  (claim_C6_unknown_token_noop [] "gzip, br" [1, 2, 3]).2.2 (fun t _ => rfl)

/-! ## Theorems for claim C8 (codec round-trip law) -/

theorem digitVal_digitChar : ∀ d : Fin 10, digitVal (digitChar d.val) = d.val := by decide

theorem isDigitChar_digitChar : ∀ d : Fin 10, isDigitChar (digitChar d.val) = true := by decide

theorem natDigits_all_digits (n : Nat) : ∀ c ∈ natDigits n, isDigitChar c = true := by
  induction n using Nat.strong_induction_on with
  | _ n ih =>
    by_cases h : n = 0
    · simp [natDigits, h]
    · rw [natDigits, dif_neg h]
      intro c hc
      rcases List.mem_append.mp hc with hc | hc
      · exact ih (n / 10) (Nat.div_lt_self (Nat.pos_of_ne_zero h) (by omega)) c hc
      · have : c = digitChar (n % 10) := by simpa using hc
        subst this
        exact isDigitChar_digitChar ⟨n % 10, by omega⟩

theorem digitsToNat_append (ds : List Char) (c : Char) :
    digitsToNat (ds ++ [c]) = 10 * digitsToNat ds + digitVal c := by
  simp [digitsToNat]

theorem digitsToNat_natDigits (n : Nat) : digitsToNat (natDigits n) = n := by
  induction n using Nat.strong_induction_on with
  | _ n ih =>
    by_cases h : n = 0
    · simp [natDigits, h, digitsToNat]
    · rw [natDigits, dif_neg h, digitsToNat_append,
        ih (n / 10) (Nat.div_lt_self (Nat.pos_of_ne_zero h) (by omega)),
        digitVal_digitChar ⟨n % 10, by omega⟩]
      show 10 * (n / 10) + n % 10 = n
      omega

theorem natDigits_ne_nil (n : Nat) (h : n ≠ 0) : natDigits n ≠ [] := by
  rw [natDigits, dif_neg h]
  simp

theorem renderNat_all_digits (n : Nat) : ∀ c ∈ renderNat n, isDigitChar c = true := by
  by_cases h : n = 0
  · intro c hc
    simp [renderNat, h] at hc
    subst hc
    decide
  · simpa [renderNat, h] using natDigits_all_digits n

theorem renderNat_ne_nil (n : Nat) : renderNat n ≠ [] := by
  by_cases h : n = 0
  · simp [renderNat, h]
  · simpa [renderNat, h] using natDigits_ne_nil n h

theorem digitsToNat_renderNat (n : Nat) : digitsToNat (renderNat n) = n := by
  by_cases h : n = 0
  · subst h
    decide
  · simpa [renderNat, h] using digitsToNat_natDigits n

theorem takeDigits_spec (ds r : List Char) (hds : ∀ c ∈ ds, isDigitChar c = true)
    (hr : headNotDigit r) : takeDigits (ds ++ r) = (ds, r) := by
  induction ds with
  | nil =>
    cases r with
    | nil => simp [takeDigits]
    | cons c r2 =>
      have : isDigitChar c = false := hr
      simp [takeDigits, this]
  | cons d ds2 ih =>
    have hd := hds d (by simp)
    have hrest : ∀ c ∈ ds2, isDigitChar c = true := fun c hc => hds c (by simp [hc])
    simp [takeDigits, hd, ih hrest]

theorem digit_ne (c x : Char) (h : isDigitChar c = true) (hx : isDigitChar x = false) :
    c ≠ x := by
  intro e
  subst e
  rw [h] at hx
  cases hx

theorem renderNat_cons (n : Nat) :
    ∃ d ds, renderNat n = d :: ds ∧ isDigitChar d = true := by
  cases hrn : renderNat n with
  | nil => exact absurd hrn (renderNat_ne_nil n)
  | cons d ds =>
    exact ⟨d, ds, rfl, renderNat_all_digits n d (by simp [hrn])⟩

theorem parseNum_renderNat (n : Nat) (rest : List Char) (hr : headNotDigit rest) :
    parseNum (renderNat n ++ rest) = some (.num (n : Int), rest) := by
  obtain ⟨d, ds, hds, hd⟩ := renderNat_cons n
  have hno : d ≠ '-' := digit_ne d '-' hd (by decide)
  have ht : takeDigits (d :: (ds ++ rest)) = (d :: ds, rest) := by
    have h0 := takeDigits_spec (renderNat n) rest (renderNat_all_digits n) hr
    rw [hds] at h0
    simpa using h0
  have hdn : digitsToNat (d :: ds) = n := by
    rw [← hds, digitsToNat_renderNat]
  rw [hds]
  simp only [List.cons_append, parseNum, if_neg hno, ht, hdn]
  simp

theorem parseNum_renderInt (n : Int) (rest : List Char) (hr : headNotDigit rest) :
    parseNum (renderInt n ++ rest) = some (.num n, rest) := by
  by_cases hn : n < 0
  · rw [renderInt, if_pos hn]
    have ht : takeDigits (renderNat n.natAbs ++ rest) = (renderNat n.natAbs, rest) :=
      takeDigits_spec _ _ (renderNat_all_digits _) hr
    simp only [List.cons_append, parseNum, if_pos rfl, ht, digitsToNat_renderNat]
    rw [if_neg (renderNat_ne_nil _)]
    have habs : ((n.natAbs : Int)) = -n := Int.ofNat_natAbs_of_nonpos (le_of_lt hn)
    rw [habs, neg_neg]
    simp
  · rw [renderInt, if_neg hn]
    have habs : ((n.natAbs : Int)) = n := Int.natAbs_of_nonneg (not_lt.mp hn)
    rw [← habs]
    exact parseNum_renderNat n.natAbs rest hr

theorem parseStrBody_quote (rest : List Char) :
    parseStrBody (quoteChar :: rest) = some ([], rest) := by
  cases rest <;> simp [parseStrBody]

theorem parseStrBody_escChar (e : Char) (rest : List Char) :
    parseStrBody (backslashChar :: e :: rest) =
      match parseStrBody rest with
      | none => none
      | some (s, r) => some (e :: s, r) := by
  have h : ¬ (backslashChar = quoteChar) := by decide
  simp [parseStrBody, h]

theorem parseStrBody_plain (c : Char) (rest : List Char) (h1 : c ≠ quoteChar)
    (h2 : c ≠ backslashChar) :
    parseStrBody (c :: rest) =
      match parseStrBody rest with
      | none => none
      | some (s, r) => some (c :: s, r) := by
  cases rest <;> simp [parseStrBody, h1, h2]

theorem parseStrBody_escape (s rest : List Char) :
    parseStrBody (escape s ++ (quoteChar :: rest)) = some (s, rest) := by
  induction s with
  | nil =>
    rw [escape, List.nil_append, parseStrBody_quote]
  | cons c s2 ih =>
    by_cases hc : c = quoteChar ∨ c = backslashChar
    · rw [escape, escChar, if_pos hc]
      simp only [List.cons_append, List.nil_append, parseStrBody_escChar, ih]
    · push_neg at hc
      rw [escape, escChar, if_neg (by tauto)]
      simp only [List.cons_append, List.nil_append,
        parseStrBody_plain c _ hc.1 hc.2, ih]

theorem numHead_not_special (c : Char) (h : isDigitChar c = true ∨ c = '-') :
    c ≠ 'n' ∧ c ≠ 't' ∧ c ≠ 'f' ∧ c ≠ quoteChar ∧ c ≠ '[' ∧ c ≠ lbraceChar := by
  rcases h with h | rfl
  · exact ⟨digit_ne c 'n' h (by decide), digit_ne c 't' h (by decide),
      digit_ne c 'f' h (by decide), digit_ne c quoteChar h (by decide),
      digit_ne c '[' h (by decide), digit_ne c lbraceChar h (by decide)⟩
  · exact ⟨by decide, by decide, by decide, by decide, by decide, by decide⟩

theorem renderInt_head (n : Int) :
    ∃ c cs, renderInt n = c :: cs ∧ (isDigitChar c = true ∨ c = '-') := by
  by_cases h : n < 0
  · exact ⟨'-', renderNat n.natAbs, by rw [renderInt, if_pos h], Or.inr rfl⟩
  · obtain ⟨d, ds, hds, hd⟩ := renderNat_cons n.natAbs
    exact ⟨d, ds, by rw [renderInt, if_neg h, hds], Or.inl hd⟩

theorem render_head_ne_rbracket (v : JValue) :
    ∃ c cs, render v = c :: cs ∧ c ≠ ']' := by
  cases v with
  | null => exact ⟨'n', _, by rw [render, nullLit], by decide⟩
  | bool b =>
    cases b with
    | false => exact ⟨'f', _, by rw [render, falseLit], by decide⟩
    | true => exact ⟨'t', _, by rw [render, trueLit], by decide⟩
  | num n =>
    obtain ⟨c, cs, hcs, hd⟩ := renderInt_head n
    refine ⟨c, cs, by rw [render, hcs], ?_⟩
    rcases hd with hd | rfl
    · exact digit_ne c ']' hd (by decide)
    · decide
  | str s => exact ⟨quoteChar, _, by rw [render], by decide⟩
  | arr xs =>
    cases xs with
    | nil => exact ⟨'[', _, by rw [render], by decide⟩
    | cons v tl => exact ⟨'[', _, by rw [render], by decide⟩
  | obj fs =>
    cases fs with
    | nil => exact ⟨lbraceChar, _, by rw [render], by decide⟩
    | cons k v tl => exact ⟨lbraceChar, _, by rw [render], by decide⟩

theorem headNotDigit_arrTail (tl : JArr) (rest : List Char) :
    headNotDigit (renderArrTail tl ++ (']' :: rest)) := by
  cases tl with
  | nil =>
    rw [renderArrTail, List.nil_append]
    show isDigitChar ']' = false
    decide
  | cons v tl2 =>
    rw [renderArrTail, List.cons_append]
    show isDigitChar ',' = false
    decide

theorem headNotDigit_objTail (tl : JObj) (rest : List Char) :
    headNotDigit (renderObjTail tl ++ (rbraceChar :: rest)) := by
  cases tl with
  | nil =>
    rw [renderObjTail, List.nil_append]
    show isDigitChar rbraceChar = false
    decide
  | cons k v tl2 =>
    rw [renderObjTail, List.cons_append]
    show isDigitChar ',' = false
    decide

theorem sizeV_pos (v : JValue) : 1 ≤ sizeV v := by
  cases v <;> simp [sizeV]

theorem sizeA_pos (a : JArr) : 1 ≤ sizeA a := by
  cases a with
  | nil => simp [sizeA]
  | cons v tl =>
    have := sizeV_pos v
    simp [sizeA]
    omega

theorem sizeO_pos (o : JObj) : 1 ≤ sizeO o := by
  cases o with
  | nil => simp [sizeO]
  | cons k v tl =>
    have := sizeV_pos v
    simp [sizeO]
    omega

theorem parse_render (fuel : Nat) :
    (∀ (v : JValue) (rest : List Char), sizeV v ≤ fuel → headNotDigit rest →
      parseVal fuel (render v ++ rest) = some (v, rest)) ∧
    (∀ (v : JValue) (tl : JArr) (rest : List Char), sizeV v + sizeA tl ≤ fuel →
      parseItems fuel (render v ++ (renderArrTail tl ++ (']' :: rest))) =
        some (.cons v tl, rest)) ∧
    (∀ (k : List Char) (v : JValue) (tl : JObj) (rest : List Char),
      sizeV v + sizeO tl ≤ fuel →
      parseFields fuel (renderField k v ++ (renderObjTail tl ++ (rbraceChar :: rest))) =
        some (.cons k v tl, rest)) := by
  induction fuel with
  | zero =>
    refine ⟨?_, ?_, ?_⟩
    · intro v rest hs _
      have := sizeV_pos v
      omega
    · intro v tl rest hs
      have := sizeV_pos v
      have := sizeA_pos tl
      omega
    · intro k v tl rest hs
      have := sizeV_pos v
      have := sizeO_pos tl
      omega
  | succ fuel ih =>
    obtain ⟨ihP, ihQ, ihR⟩ := ih
    refine ⟨?_, ?_, ?_⟩
    · intro v rest hs hrest
      cases v with
      | null =>
        rw [render]
        simp [parseVal, expectLit, nullLit]
      | bool b =>
        have ht1 : ('t' : Char) ≠ 'n' := by decide
        have hf1 : ('f' : Char) ≠ 'n' := by decide
        have hf2 : ('f' : Char) ≠ 't' := by decide
        cases b with
        | true =>
          rw [render]
          simp [parseVal, expectLit, trueLit, ht1]
        | false =>
          rw [render]
          simp [parseVal, expectLit, falseLit, hf1, hf2]
      | num n =>
        obtain ⟨c, cs, hcs, hd⟩ := renderInt_head n
        obtain ⟨h1, h2, h3, h4, h5, h6⟩ := numHead_not_special c hd
        rw [render, hcs]
        simp only [List.cons_append, parseVal, if_neg h1, if_neg h2, if_neg h3,
          if_neg h4, if_neg h5, if_neg h6]
        rw [← List.cons_append, ← hcs]
        exact parseNum_renderInt n rest hrest
      | str s =>
        have hq1 : quoteChar ≠ 'n' := by decide
        have hq2 : quoteChar ≠ 't' := by decide
        have hq3 : quoteChar ≠ 'f' := by decide
        rw [render]
        simp only [List.cons_append, List.append_assoc, List.singleton_append,
          List.nil_append, parseVal, if_neg hq1, if_neg hq2, if_neg hq3, if_pos rfl]
        rw [parseStrBody_escape]
        simp
      | arr xs =>
        have hb1 : ('[' : Char) ≠ 'n' := by decide
        have hb2 : ('[' : Char) ≠ 't' := by decide
        have hb3 : ('[' : Char) ≠ 'f' := by decide
        have hb4 : ('[' : Char) ≠ quoteChar := by decide
        cases xs with
        | nil =>
          rw [render]
          simp only [List.cons_append, List.nil_append, parseVal, if_neg hb1,
            if_neg hb2, if_neg hb3, if_neg hb4, if_pos rfl]
          simp
        | cons v tl =>
          obtain ⟨c0, cs0, hc0, hne0⟩ := render_head_ne_rbracket v
          have hsz : sizeV v + sizeA tl ≤ fuel := by
            simp [sizeV, sizeA] at hs
            omega
          rw [render]
          simp only [List.cons_append, List.append_assoc, List.singleton_append,
            List.nil_append, parseVal, if_neg hb1, if_neg hb2, if_neg hb3,
            if_neg hb4, if_pos rfl]
          have hhead : (render v ++ (renderArrTail tl ++ (']' :: rest))).head? ≠
              some ']' := by
            rw [hc0]
            simpa using hne0
          rw [if_neg hhead, ihQ v tl rest hsz]
          simp
      | obj fs =>
        have ho1 : lbraceChar ≠ 'n' := by decide
        have ho2 : lbraceChar ≠ 't' := by decide
        have ho3 : lbraceChar ≠ 'f' := by decide
        have ho4 : lbraceChar ≠ quoteChar := by decide
        have ho5 : lbraceChar ≠ '[' := by decide
        cases fs with
        | nil =>
          rw [render]
          simp only [List.cons_append, List.nil_append, parseVal, if_neg ho1,
            if_neg ho2, if_neg ho3, if_neg ho4, if_neg ho5, if_pos rfl]
          simp
        | cons k v tl =>
          have hsz : sizeV v + sizeO tl ≤ fuel := by
            simp [sizeV, sizeO] at hs
            omega
          rw [render]
          simp only [List.cons_append, List.append_assoc, List.singleton_append,
            List.nil_append, parseVal, if_neg ho1, if_neg ho2, if_neg ho3,
            if_neg ho4, if_neg ho5, if_pos rfl]
          have hhead : ((renderField k v ++ (renderObjTail tl ++ (rbraceChar :: rest))).head?) ≠
              some rbraceChar := by
            rw [renderField]
            simp only [List.cons_append, List.head?_cons]
            decide
          rw [if_neg hhead, ihR k v tl rest hsz]
          simp
    · intro v tl rest hs
      have hsv : sizeV v ≤ fuel := by
        have := sizeA_pos tl
        omega
      rw [parseItems, ihP v (renderArrTail tl ++ (']' :: rest)) hsv
        (headNotDigit_arrTail tl rest)]
      cases tl with
      | nil =>
        rw [renderArrTail, List.nil_append]
        have : (']' : Char) ≠ ',' := by decide
        simp [this]
      | cons v2 tl2 =>
        have hsz2 : sizeV v2 + sizeA tl2 ≤ fuel := by
          have := sizeV_pos v
          simp [sizeA] at hs
          omega
        rw [renderArrTail]
        simp only [List.cons_append, List.append_assoc, if_pos rfl]
        rw [ihQ v2 tl2 rest hsz2]
        simp
    · intro k v tl rest hs
      have hsv : sizeV v ≤ fuel := by
        have := sizeO_pos tl
        omega
      have hqc : quoteChar = quoteChar := rfl
      rw [renderField]
      simp only [List.cons_append, List.append_assoc, parseFields, if_pos rfl]
      rw [parseStrBody_escape]
      simp only [if_pos rfl]
      rw [ihP v (renderObjTail tl ++ (rbraceChar :: rest)) hsv
        (headNotDigit_objTail tl rest)]
      cases tl with
      | nil =>
        rw [renderObjTail, List.nil_append]
        have : rbraceChar ≠ ',' := by decide
        simp [this]
      | cons k2 v2 tl2 =>
        have hsz2 : sizeV v2 + sizeO tl2 ≤ fuel := by
          have := sizeV_pos v
          simp [sizeO] at hs
          omega
        rw [renderObjTail]
        simp only [List.cons_append, List.append_assoc, if_pos rfl]
        rw [ihR k2 v2 tl2 rest hsz2]
        simp

mutual

theorem sizeV_le_render (v : JValue) : sizeV v ≤ (render v).length + 1 := by
  cases v with
  | null => simp [sizeV, render]
  | bool b => cases b <;> simp [sizeV, render]
  | num n => simp [sizeV]
  | str s => simp [sizeV]
  | arr xs =>
    cases xs with
    | nil => simp [sizeV, sizeA, render]
    | cons v tl =>
      have h1 := sizeV_le_render v
      have h2 := sizeA_le_renderArrTail tl
      simp only [sizeV, sizeA, render, List.length_cons, List.length_append]
      omega
  | obj fs =>
    cases fs with
    | nil => simp [sizeV, sizeO, render]
    | cons k v tl =>
      have h1 := sizeV_le_render v
      have h2 := sizeO_le_renderObjTail tl
      have h3 : (render v).length ≤ (renderField k v).length := by
        simp [renderField]
        omega
      simp only [sizeV, sizeO, render, List.length_cons, List.length_append]
      omega

theorem sizeA_le_renderArrTail (a : JArr) : sizeA a ≤ (renderArrTail a).length + 1 := by
  cases a with
  | nil => simp [sizeA, renderArrTail]
  | cons v tl =>
    have h1 := sizeV_le_render v
    have h2 := sizeA_le_renderArrTail tl
    simp only [sizeA, renderArrTail, List.length_cons, List.length_append]
    omega

theorem sizeO_le_renderObjTail (o : JObj) : sizeO o ≤ (renderObjTail o).length + 1 := by
  cases o with
  | nil => simp [sizeO, renderObjTail]
  | cons k v tl =>
    have h1 := sizeV_le_render v
    have h2 := sizeO_le_renderObjTail tl
    have h3 : (render v).length ≤ (renderField k v).length := by
      simp [renderField]
      omega
    simp only [sizeO, renderObjTail, List.length_cons, List.length_append]
    omega

end

/-- Claim C8: for the JSON and YAML codecs and every value representable in
the format, unmarshal of marshal returns the original value (the round-trip
law).  The modelled YAML codec shares the JSON value space and flow style
surface text, as the conversion based Go YAML module does. -/
theorem claim_C8_roundtrip (v : JValue) :
    JSON.unmarshal (JSON.marshal v) = some v ∧
    YAML.unmarshal (YAML.marshal v) = some v := by
  have hb : sizeV v ≤ (render v).length + 1 := sizeV_le_render v
  have h := (parse_render ((render v).length + 1)).1 v [] hb trivial
  rw [List.append_nil] at h
  have hj : JSON.unmarshal (JSON.marshal v) = some v := by
    simp [JSON.unmarshal, JSON.marshal, h]
  exact ⟨hj, hj⟩
